import Mathlib

/-!
Verification development for a repository providing two caching primitives:
a bounded LRU cache backing a range-sum query system (task_1.py) and a splay
tree used as an ordered cache for a memoized Fibonacci evaluator (task_2.py).

The Python classes are shallowly embedded as follows.

task_1.py:
  LRUCache            -> Task1.LRUCache       (OrderedDict modeled as an
                          association list ordered from least-recently-used
                          at the head to most-recently-used at the end;
                          move_to_end = remove + append, popitem(last=False)
                          = drop the head)
  ArrayCacheSystem    -> Task1.ArrayCacheSystem (array as List Int; Python
                          slice array[L : R + 1] with non-negative bounds
                          clamps, modeled by (array.drop L).take (R + 1 - L))

task_2.py:
  Node / SplayTree    -> Task2.Tree, an inductive binary tree.  The Python
                          parent pointers exist only for the bottom-up splay
                          loop; that loop is modeled by a zipper: findPath
                          records the descent directions, unzipAux turns them
                          into a list of frames (innermost first), and
                          splayLoop consumes one frame (zig) or two frames
                          (zig-zig / zig-zag) per iteration exactly as
                          SplayTree._splay does, using the same rotation
                          order (_rotate_right / _rotate_left become
                          rotateRightTop / rotateLeftTop acting on the root
                          of the reconstructed subtree).
  LruFibSystem.fibonacci_lru -> Task2.fibonacci_lru (the lru_cache decorator
                          memoizes a pure function, so only values are
                          modeled)
  SplayFibSystem      -> Task2.fibonacci_splay over an explicit tree state,
                          seeded with (0,0) and (1,1) as in __init__.
-/

namespace Task1

/-- Lookup in an association list, first match wins.  Models key lookup in
the OrderedDict backing LRUCache. -/
def assocGet {K V : Type} [DecidableEq K] : List (K × V) → K → Option V
  | [], _ => none
  | p :: rest, k => if p.1 = k then some p.2 else assocGet rest k

/-- Remove every entry with the given key.  Since OrderedDict keys are
unique, this models removing the single entry for the key. -/
def removeKey {K V : Type} [DecidableEq K] : List (K × V) → K → List (K × V)
  | [], _ => []
  | p :: rest, k => if p.1 = k then removeKey rest k else p :: removeKey rest k

/-- LRUCache state: the OrderedDict is an association list ordered from
least-recently-used (head) to most-recently-used (end). -/
structure LRUCache (K V : Type) where
  capacity : Nat
  cache : List (K × V)
deriving DecidableEq

/-- LRUCache.__init__(capacity): empty cache with the given capacity. -/
def LRUCache.init (K V : Type) (capacity : Nat) : LRUCache K V :=
  { capacity := capacity, cache := [] }

/-- LRUCache.get: on a hit, move the entry to the most-recently-used end and
return its value; on a miss return None with no state change. -/
def LRUCache.get {K V : Type} [DecidableEq K] (c : LRUCache K V) (k : K) :
    Option V × LRUCache K V :=
  match assocGet c.cache k with
  | none => (none, c)
  | some v => (some v, { c with cache := removeKey c.cache k ++ [(k, v)] })

/-- LRUCache.put: if the key exists, move it to the end with the new value;
otherwise append it and, if the size now exceeds the capacity, drop the
least-recently-used entry (the head, popitem(last=False)). -/
def LRUCache.put {K V : Type} [DecidableEq K] (c : LRUCache K V) (k : K) (v : V) :
    LRUCache K V :=
  match assocGet c.cache k with
  | some _ => { c with cache := removeKey c.cache k ++ [(k, v)] }
  | none =>
    let grown := c.cache ++ [(k, v)]
    if c.capacity < grown.length then { c with cache := grown.drop 1 }
    else { c with cache := grown }

/-- LRUCache.clear: remove all entries, capacity unchanged. -/
def LRUCache.clear {K V : Type} (c : LRUCache K V) : LRUCache K V :=
  { c with cache := [] }

/-- A client-visible LRU cache operation. -/
inductive LOp (K V : Type) where
  | lget : K → LOp K V
  | lput : K → V → LOp K V
  | lclear : LOp K V

/-- Run a sequence of LRU cache operations, keeping only the final state. -/
def runLOps {K V : Type} [DecidableEq K] : List (LOp K V) → LRUCache K V → LRUCache K V
  | [], c => c
  | LOp.lget k :: ops, c => runLOps ops (c.get k).2
  | LOp.lput k v :: ops, c => runLOps ops (c.put k v)
  | LOp.lclear :: ops, c => runLOps ops c.clear

/-- Fold a list of puts over a cache. -/
def putAll {K V : Type} [DecidableEq K] (c : LRUCache K V) (ps : List (K × V)) :
    LRUCache K V :=
  ps.foldl (fun a p => a.put p.1 p.2) c

/-- Sum of the Python slice array[L : R + 1] for non-negative bounds:
slicing clamps out-of-range indices. -/
def sumRange (arr : List Int) (L R : Nat) : Int :=
  ((arr.drop L).take (R + 1 - L)).sum

/-- ArrayCacheSystem state: the backing array and its LRU cache keyed by
range bounds. -/
structure ArrayCacheSystem where
  array : List Int
  cache : LRUCache (Nat × Nat) Int
deriving DecidableEq

/-- ArrayCacheSystem.range_sum_no_cache: direct summation of array[L..R]. -/
def range_sum_no_cache (s : ArrayCacheSystem) (L R : Nat) : Int :=
  sumRange s.array L R

/-- ArrayCacheSystem.update_no_cache: point write, no cache involved. -/
def update_no_cache (s : ArrayCacheSystem) (i : Nat) (v : Int) : ArrayCacheSystem :=
  { s with array := s.array.set i v }

/-- ArrayCacheSystem.range_sum_with_cache: consult the LRU cache under key
(L, R); on a miss compute the slice sum and store it. -/
def range_sum_with_cache (s : ArrayCacheSystem) (L R : Nat) :
    Int × ArrayCacheSystem :=
  match s.cache.get (L, R) with
  | (some v, c1) => (v, { s with cache := c1 })
  | (none, _) =>
    let sum := sumRange s.array L R
    (sum, { s with cache := s.cache.put (L, R) sum })

/-- ArrayCacheSystem.update_with_cache: point write, then clear the entire
cache. -/
def update_with_cache (s : ArrayCacheSystem) (i : Nat) (v : Int) : ArrayCacheSystem :=
  { array := s.array.set i v, cache := s.cache.clear }

/-- ArrayCacheSystem.load_array: replace the whole backing array, failing
first (before any state change) when the length does not match. -/
def load_array (s : ArrayCacheSystem) (data : List Int) :
    Except String ArrayCacheSystem :=
  if data.length ≠ s.array.length then
    Except.error "Data length mismatch with array size."
  else
    Except.ok { s with array := data }

/-- A client-visible operation on the cached array system. -/
inductive AOp where
  | rsum : Nat → Nat → AOp
  | upd : Nat → Int → AOp

/-- Documented preconditions of the demo driver: range bounds ordered and in
range, update index in range. -/
def ValidAOp (n : Nat) : AOp → Prop
  | AOp.rsum L R => L ≤ R ∧ R < n
  | AOp.upd i _ => i < n

instance (n : Nat) (op : AOp) : Decidable (ValidAOp n op) :=
  match op with
  | AOp.rsum L R => inferInstanceAs (Decidable (L ≤ R ∧ R < n))
  | AOp.upd i _ => inferInstanceAs (Decidable (i < n))

/-- Run an interleaved sequence of cached range sums and cached updates,
collecting the values each range-sum call returned. -/
def runAOps : List AOp → ArrayCacheSystem → List Int × ArrayCacheSystem
  | [], s => ([], s)
  | AOp.rsum L R :: ops, s =>
    let r := range_sum_with_cache s L R
    let rest := runAOps ops r.2
    (r.1 :: rest.1, rest.2)
  | AOp.upd i v :: ops, s => runAOps ops (update_with_cache s i v)

/-- Reference semantics: the same operation sequence evaluated by direct
summation over the evolving array, with no cache at all. -/
def runPure : List AOp → List Int → List Int
  | [], _ => []
  | AOp.rsum L R :: ops, arr => sumRange arr L R :: runPure ops arr
  | AOp.upd i v :: ops, arr => runPure ops (arr.set i v)

/-- Cache correctness invariant: every cached entry holds the sum of the
current array over its key range. -/
def CacheInv (s : ArrayCacheSystem) : Prop :=
  ∀ e ∈ s.cache.cache, e.2 = sumRange s.array e.1.1 e.1.2

end Task1

namespace Task2

/-- A descent direction in the splay tree (which child pointer was
followed). -/
inductive Dir where
  | L : Dir
  | R : Dir
deriving DecidableEq

/-- The splay tree shape: Node holds left child, data (key), value, right
child.  The Python parent pointer is redundant structure recoverable from
the path, so it is not stored. -/
inductive Tree (K V : Type) where
  | nil : Tree K V
  | node : Tree K V → K → V → Tree K V → Tree K V
deriving DecidableEq

/-- In-order traversal of the (key, value) pairs. -/
def toList {K V : Type} : Tree K V → List (K × V)
  | Tree.nil => []
  | Tree.node l k v r => toList l ++ (k, v) :: toList r

/-- In-order key sequence. -/
def keys {K V : Type} (t : Tree K V) : List K :=
  (toList t).map Prod.fst

/-- Key stored at the root, if any. -/
def rootKey {K V : Type} : Tree K V → Option K
  | Tree.nil => none
  | Tree.node _ k _ _ => some k

/-- Value stored at the root, if any. -/
def rootVal {K V : Type} : Tree K V → Option V
  | Tree.nil => none
  | Tree.node _ _ v _ => some v

/-- SplayTree._insert_node: BST descent with keys below the current key
going left and all other keys (including equal ones) going right; the nil
case is the leaf attachment of the new Node. -/
def insertNode {K V : Type} [LinearOrder K] (d : K) (v : V) : Tree K V → Tree K V
  | Tree.nil => Tree.node Tree.nil d v Tree.nil
  | Tree.node l k w r =>
    if d < k then Tree.node (insertNode d v l) k w r
    else Tree.node l k w (insertNode d v r)

/-- SplayTree.find_node as a path: descend left when the key is smaller,
right when larger, and stop at the first node with an equal key, returning
the list of directions taken. -/
def findPath {K V : Type} [LinearOrder K] (d : K) : Tree K V → Option (List Dir)
  | Tree.nil => none
  | Tree.node l k _ r =>
    if d < k then (findPath d l).map (fun p => Dir.L :: p)
    else if k < d then (findPath d r).map (fun p => Dir.R :: p)
    else some []

/-- One zipper frame: the focused subtree was the dir child of a parent with
the given key and value, whose other child is the stored subtree. -/
structure Frame (K V : Type) where
  dir : Dir
  other : Tree K V
  key : K
  val : V

/-- Walk a path down the tree, producing the focused subtree and the list of
frames from the focused node up to the root (innermost parent first). -/
def unzipAux {K V : Type} :
    Tree K V → List Dir → List (Frame K V) → Tree K V × List (Frame K V)
  | t, [], acc => (t, acc)
  | Tree.nil, _ :: _, acc => (Tree.nil, acc)
  | Tree.node l k v r, Dir.L :: p, acc => unzipAux l p (⟨Dir.L, r, k, v⟩ :: acc)
  | Tree.node l k v r, Dir.R :: p, acc => unzipAux r p (⟨Dir.R, l, k, v⟩ :: acc)

/-- Reattach a focused subtree under one frame, rebuilding the parent node. -/
def assemble {K V : Type} (t : Tree K V) (f : Frame K V) : Tree K V :=
  match f with
  | ⟨Dir.L, other, k, v⟩ => Tree.node t k v other
  | ⟨Dir.R, other, k, v⟩ => Tree.node other k v t

/-- Rebuild the whole tree from a focused subtree and its frames, with no
rotations; the inverse of unzipAux. -/
def plug {K V : Type} : Tree K V → List (Frame K V) → Tree K V
  | t, [] => t
  | t, f :: fs => plug (assemble t f) fs

/-- SplayTree._rotate_right applied at the root of a subtree; a no-op when
the left child is absent, as in the source. -/
def rotateRightTop {K V : Type} : Tree K V → Tree K V
  | Tree.node (Tree.node a x w b) k v c => Tree.node a x w (Tree.node b k v c)
  | t => t

/-- SplayTree._rotate_left applied at the root of a subtree; a no-op when
the right child is absent, as in the source. -/
def rotateLeftTop {K V : Type} : Tree K V → Tree K V
  | Tree.node a k v (Tree.node b x w c) => Tree.node (Tree.node a k v b) x w c
  | t => t

/-- Zig case of SplayTree._splay: the parent is the root, so rotate the
parent once, right when the node is a left child and left otherwise. -/
def zigStep {K V : Type} (t : Tree K V) (f : Frame K V) : Tree K V :=
  match f.dir with
  | Dir.L => rotateRightTop (assemble t f)
  | Dir.R => rotateLeftTop (assemble t f)

/-- Zig-zig and zig-zag cases of SplayTree._splay, consuming the parent
frame f1 and the grandparent frame f2 with the same rotation order as the
source: zig-zig rotates the grandparent first and then the parent; zig-zag
rotates the parent first and then the grandparent. -/
def zigZigZagStep {K V : Type} (t : Tree K V) (f1 f2 : Frame K V) : Tree K V :=
  match f1.dir, f2.dir with
  | Dir.L, Dir.L => rotateRightTop (rotateRightTop (assemble (assemble t f1) f2))
  | Dir.R, Dir.R => rotateLeftTop (rotateLeftTop (assemble (assemble t f1) f2))
  | Dir.L, Dir.R => rotateLeftTop (assemble (rotateRightTop (assemble t f1)) f2)
  | Dir.R, Dir.L => rotateRightTop (assemble (rotateLeftTop (assemble t f1)) f2)

/-- The while loop of SplayTree._splay: stop when the node has no parent,
consume one frame when the parent is the root, and two frames otherwise. -/
def splayLoop {K V : Type} : Tree K V → List (Frame K V) → Tree K V
  | t, [] => t
  | t, [f] => zigStep t f
  | t, f1 :: f2 :: fs => splayLoop (zigZigZagStep t f1 f2) fs

/-- Splay the node at the given path to the root. -/
def splay {K V : Type} (t : Tree K V) (p : List Dir) : Tree K V :=
  let z := unzipAux t p []
  splayLoop z.1 z.2

/-- SplayTree.search: find the first node with the key; on success return
its value and splay it to the root, on failure leave the tree unchanged. -/
def searchT {K V : Type} [LinearOrder K] (d : K) (t : Tree K V) :
    Option V × Tree K V :=
  match findPath d t with
  | none => (none, t)
  | some p => (rootVal (unzipAux t p []).1, splay t p)

/-- SplayTree.insert: physically insert the node, then locate the first node
carrying the key and splay it to the root. -/
def insertT {K V : Type} [LinearOrder K] (d : K) (v : V) (t : Tree K V) : Tree K V :=
  let t1 := insertNode d v t
  match findPath d t1 with
  | none => t1
  | some p => splay t1 p

/-- A client-visible splay tree operation. -/
inductive SOp (K V : Type) where
  | ins : K → V → SOp K V
  | srch : K → SOp K V

/-- Run a sequence of inserts and searches, keeping the final tree. -/
def runSOps {K V : Type} [LinearOrder K] : List (SOp K V) → Tree K V → Tree K V
  | [], t => t
  | SOp.ins k v :: ops, t => runSOps ops (insertT k v t)
  | SOp.srch k :: ops, t => runSOps ops (searchT k t).2

/-- LruFibSystem.fibonacci_lru: the lru_cache decorator memoizes a pure
function, so the observable value is that of the plain recursion. -/
def fibonacci_lru (n : Nat) : Nat :=
  if _h : n < 2 then n
  else fibonacci_lru (n - 1) + fibonacci_lru (n - 2)
termination_by n
decreasing_by
  all_goals omega

/-- Reference recurrence from the spec: f(0)=0, f(1)=1, f(n)=f(n-1)+f(n-2). -/
def fibRef : Nat → Nat
  | 0 => 0
  | 1 => 1
  | n + 2 => fibRef (n + 1) + fibRef n

/-- SplayFibSystem.fibonacci_splay: consult the splay tree, recurse on a
miss, and insert the freshly computed value.  The tree state is threaded
explicitly. -/
def fibonacci_splay (n : Nat) (st : Tree Nat Nat) : Nat × Tree Nat Nat :=
  match searchT n st with
  | (some v, st1) => (v, st1)
  | (none, _) =>
    if _h : n < 2 then (n, st)
    else
      let p1 := fibonacci_splay (n - 1) st
      let p2 := fibonacci_splay (n - 2) p1.2
      (p1.1 + p2.1, insertT n (p1.1 + p2.1) p2.2)
termination_by n
decreasing_by
  all_goals omega

/-- SplayFibSystem.__init__: the tree pre-seeded with fib(0)=0 and
fib(1)=1. -/
def initFibTree : Tree Nat Nat :=
  insertT 1 1 (insertT 0 0 Tree.nil)

/-- Tree value invariant: every stored pair caches a correct Fibonacci
value. -/
def TOK (t : Tree Nat Nat) : Prop :=
  ∀ p ∈ toList t, p.2 = fibRef p.1

end Task2


namespace Task1

theorem assocGet_mem {K V : Type} [DecidableEq K] (l : List (K × V)) (k : K) (v : V)
    (h : assocGet l k = some v) : (k, v) ∈ l := by
  induction l with
  | nil => simp [assocGet] at h
  | cons p rest ih =>
    rw [assocGet] at h
    split at h
    · next heq =>
      injection h with hv
      subst heq
      subst hv
      simp
    · exact List.mem_cons_of_mem _ (ih h)

theorem assocGet_eq_none {K V : Type} [DecidableEq K] (l : List (K × V)) (k : K)
    (h : k ∉ l.map Prod.fst) : assocGet l k = none := by
  induction l with
  | nil => rfl
  | cons p rest ih =>
    rw [assocGet]
    simp only [List.map_cons, List.mem_cons] at h
    push_neg at h
    rw [if_neg (fun hk => h.1 hk.symm)]
    exact ih h.2

theorem mem_removeKey {K V : Type} [DecidableEq K] (l : List (K × V)) (k : K)
    (p : K × V) (h : p ∈ removeKey l k) : p ∈ l := by
  induction l with
  | nil => simpa [removeKey] using h
  | cons q rest ih =>
    rw [removeKey] at h
    split at h
    · exact List.mem_cons_of_mem _ (ih h)
    · rcases List.mem_cons.mp h with h1 | h1
      · exact h1 ▸ List.mem_cons_self _ _
      · exact List.mem_cons_of_mem _ (ih h1)

theorem length_removeKey_le {K V : Type} [DecidableEq K] (l : List (K × V)) (k : K) :
    (removeKey l k).length ≤ l.length := by
  induction l with
  | nil => simp [removeKey]
  | cons q rest ih =>
    rw [removeKey]
    split
    · exact Nat.le_succ_of_le ih
    · simpa using Nat.succ_le_succ ih

theorem length_removeKey_lt {K V : Type} [DecidableEq K] (l : List (K × V)) (k : K)
    (v : V) (h : assocGet l k = some v) : (removeKey l k).length < l.length := by
  induction l with
  | nil => simp [assocGet] at h
  | cons q rest ih =>
    rw [assocGet] at h
    rw [removeKey]
    split
    · next heq => exact Nat.lt_succ_of_le (length_removeKey_le rest k)
    · next heq =>
      rw [if_neg heq] at h
      simpa using Nat.succ_lt_succ (ih h)

theorem put_capacity {K V : Type} [DecidableEq K] (c : LRUCache K V) (k : K) (v : V) :
    (c.put k v).capacity = c.capacity := by
  rw [LRUCache.put]
  split
  · rfl
  · dsimp only
    split <;> rfl

theorem get_capacity {K V : Type} [DecidableEq K] (c : LRUCache K V) (k : K) :
    (c.get k).2.capacity = c.capacity := by
  rw [LRUCache.get]
  split <;> rfl

theorem put_length_le {K V : Type} [DecidableEq K] (c : LRUCache K V) (k : K) (v : V)
    (h : c.cache.length ≤ c.capacity) : (c.put k v).cache.length ≤ c.capacity := by
  rw [LRUCache.put]
  split
  · next v0 hsome =>
    have hlt := length_removeKey_lt c.cache k v0 hsome
    simpa using Nat.le_trans (Nat.succ_le_of_lt (by simpa using hlt)) h
  · next hnone =>
    dsimp only
    split
    · next hover =>
      simp only [List.length_drop, List.length_append, List.length_cons,
        List.length_nil]
      omega
    · next hover =>
      simp only [List.length_append, List.length_cons, List.length_nil] at hover ⊢
      omega

theorem get_length_le {K V : Type} [DecidableEq K] (c : LRUCache K V) (k : K)
    (h : c.cache.length ≤ c.capacity) : (c.get k).2.cache.length ≤ c.capacity := by
  rw [LRUCache.get]
  split
  · exact h
  · next v hsome =>
    have hlt := length_removeKey_lt c.cache k v hsome
    simp only [List.length_append, List.length_cons, List.length_nil]
    omega

theorem runLOps_invariant {K V : Type} [DecidableEq K] (ops : List (LOp K V))
    (c : LRUCache K V) (h : c.cache.length ≤ c.capacity) :
    (runLOps ops c).cache.length ≤ (runLOps ops c).capacity ∧
      (runLOps ops c).capacity = c.capacity := by
  induction ops generalizing c with
  | nil => exact ⟨h, rfl⟩
  | cons op ops ih =>
    cases op with
    | lget k =>
      rw [runLOps]
      have := ih (c.get k).2 (by rw [get_capacity]; exact get_length_le c k h)
      exact ⟨this.1, this.2.trans (get_capacity c k)⟩
    | lput k v =>
      rw [runLOps]
      have := ih (c.put k v) (by rw [put_capacity]; exact put_length_le c k v h)
      exact ⟨this.1, this.2.trans (put_capacity c k v)⟩
    | lclear =>
      rw [runLOps]
      have := ih c.clear (by simp [LRUCache.clear])
      exact ⟨this.1, this.2⟩

end Task1

/-- C3: for every capacity and every sequence of get/put/clear operations on
an LRUCache constructed with that capacity, the number of stored entries is
at most the capacity after every operation (every prefix of a sequence is
itself a sequence, so this covers every intermediate state, and in
particular the state after every put). -/
theorem C3_capacity_invariant {K V : Type} [DecidableEq K] (cap : Nat)
    (ops : List (Task1.LOp K V)) :
    (Task1.runLOps ops (Task1.LRUCache.init K V cap)).cache.length ≤ cap := by
  have h := Task1.runLOps_invariant ops (Task1.LRUCache.init K V cap)
    (by simp [Task1.LRUCache.init])
  calc (Task1.runLOps ops (Task1.LRUCache.init K V cap)).cache.length
      ≤ (Task1.runLOps ops (Task1.LRUCache.init K V cap)).capacity := h.1
    _ = cap := h.2

namespace Task1

theorem put_zero_cap_empty {K V : Type} [DecidableEq K] (c : LRUCache K V)
    (k : K) (v : V) (hcap : c.capacity = 0) (hc : c.cache = []) :
    (c.put k v).cache = [] := by
  rw [LRUCache.put, hc]
  simp [assocGet, hcap]

theorem runLOps_zero_cap {K V : Type} [DecidableEq K] (ops : List (LOp K V))
    (c : LRUCache K V) (hcap : c.capacity = 0) (hc : c.cache = []) :
    (runLOps ops c).cache = [] ∧ (runLOps ops c).capacity = 0 := by
  induction ops generalizing c with
  | nil => exact ⟨hc, hcap⟩
  | cons op ops ih =>
    cases op with
    | lget k =>
      rw [runLOps]
      have hget : (c.get k) = (none, c) := by
        rw [LRUCache.get, hc]
        rfl
      rw [hget]
      exact ih c hcap hc
    | lput k v =>
      rw [runLOps]
      exact ih _ ((put_capacity c k v).trans hcap) (put_zero_cap_empty c k v hcap hc)
    | lclear =>
      rw [runLOps]
      exact ih c.clear hcap rfl

end Task1

/-- C5: an LRUCache constructed with capacity 0 stays empty under any
operation sequence; on such a cache every put leaves the stored entries
empty and every get returns the absent signal None without changing the
state. -/
theorem C5_zero_capacity_noop {K V : Type} [DecidableEq K]
    (ops : List (Task1.LOp K V)) (k : K) (v : V) :
    (Task1.runLOps ops (Task1.LRUCache.init K V 0)).cache = [] ∧
      ((Task1.runLOps ops (Task1.LRUCache.init K V 0)).put k v).cache = [] ∧
      ((Task1.runLOps ops (Task1.LRUCache.init K V 0)).get k).1 = none ∧
      ((Task1.runLOps ops (Task1.LRUCache.init K V 0)).get k).2 =
        Task1.runLOps ops (Task1.LRUCache.init K V 0) := by
  obtain ⟨hc, hcap⟩ := Task1.runLOps_zero_cap ops (Task1.LRUCache.init K V 0) rfl rfl
  refine ⟨hc, Task1.put_zero_cap_empty _ k v hcap hc, ?_, ?_⟩ <;>
    · rw [Task1.LRUCache.get, hc]
      rfl

namespace Task1

theorem put_fresh_eq {K V : Type} [DecidableEq K] (c : LRUCache K V) (k : K) (v : V)
    (hnone : assocGet c.cache k = none) :
    (c.put k v).cache =
      if c.capacity < c.cache.length + 1 then (c.cache ++ [(k, v)]).drop 1
      else c.cache ++ [(k, v)] := by
  rw [LRUCache.put, hnone]
  dsimp only
  simp only [List.length_append, List.length_cons, List.length_nil, Nat.zero_add]
  split <;> rfl

theorem get_miss_eq {K V : Type} [DecidableEq K] (c : LRUCache K V) (k : K)
    (hnone : assocGet c.cache k = none) : c.get k = (none, c) := by
  rw [LRUCache.get, hnone]

theorem put_full_fresh {K V : Type} [DecidableEq K] (c : LRUCache K V) (k : K) (v : V)
    (hnone : assocGet c.cache k = none) (hfull : c.cache.length = c.capacity)
    (hpos : 0 < c.capacity) :
    (c.put k v).cache = c.cache.drop 1 ++ [(k, v)] := by
  rw [put_fresh_eq c k v hnone, if_pos (by omega)]
  exact List.drop_append_of_le_length (by omega)

theorem putAll_capacity {K V : Type} [DecidableEq K] (ps : List (K × V))
    (c : LRUCache K V) : (putAll c ps).capacity = c.capacity := by
  induction ps generalizing c with
  | nil => rfl
  | cons p ps ih =>
    show (putAll (c.put p.1 p.2) ps).capacity = c.capacity
    rw [ih, put_capacity]

theorem putAll_distinct {K V : Type} [DecidableEq K] (ps : List (K × V)) (cap : Nat)
    (hnd : (ps.map Prod.fst).Nodup) :
    (putAll (LRUCache.init K V cap) ps).cache = ps.drop (ps.length - cap) := by
  induction ps using List.reverseRecOn with
  | nil => simp [putAll, LRUCache.init]
  | append_singleton ps p ih =>
    have hnd2 : (ps.map Prod.fst).Nodup := by
      rw [List.map_append, List.nodup_append] at hnd
      exact hnd.1
    have hdisj : p.1 ∉ ps.map Prod.fst := by
      rw [List.map_append, List.nodup_append] at hnd
      intro hmem
      exact hnd.2.2 hmem (by simp)
    have hstep : putAll (LRUCache.init K V cap) (ps ++ [p]) =
        (putAll (LRUCache.init K V cap) ps).put p.1 p.2 := by
      rw [putAll, List.foldl_append]
      rfl
    have hcache := ih hnd2
    have hcap := putAll_capacity ps (LRUCache.init K V cap)
    have hfresh : assocGet (putAll (LRUCache.init K V cap) ps).cache p.1 = none := by
      apply assocGet_eq_none
      intro hmem
      rw [hcache] at hmem
      rcases List.mem_map.mp hmem with ⟨q, hq, hq1⟩
      exact hdisj (List.mem_map.mpr ⟨q, List.drop_subset _ _ hq, hq1⟩)
    rw [hstep, put_fresh_eq _ _ _ hfresh, hcache, hcap,
      show (LRUCache.init K V cap).capacity = cap from rfl]
    have hlen : (ps.drop (ps.length - cap)).length = ps.length - (ps.length - cap) := by
      rw [List.length_drop]
    by_cases hle : cap ≤ ps.length
    · rw [if_pos (by omega)]
      by_cases h0 : cap = 0
      · subst h0
        simp
      · rw [List.drop_append_of_le_length (by omega), List.drop_drop]
        have : ps.length - cap + 1 = (ps ++ [p]).length - cap := by
          simp only [List.length_append, List.length_cons, List.length_nil]
          omega
        rw [this]
        rw [List.drop_append_of_le_length (by simp; omega)]
    · rw [if_neg (by omega)]
      have h1 : ps.length - cap = 0 := by omega
      have h2 : (ps ++ [p]).length - cap = 0 := by simp; omega
      rw [h1] at *
      rw [h2, List.drop_zero]
      simp_all

end Task1

/-- C4: LRU eviction is precise.  First, a put of a fresh key into a cache
at full positive capacity drops exactly the head entry — the
least-recently-used one — and appends the new entry at the
most-recently-used end.  Second, after putting a list of pairwise-distinct
keys into a fresh cache, the remaining entries are exactly the last
min(capacity, N) puts, i.e. the evicted keys are exactly the N - capacity
earliest-inserted ones (with capacity 2, putting A, B, C leaves B and C, so
A was evicted).  Third, a get on an absent key returns None and does not
mutate the cache. -/
theorem C4_lru_eviction_precise {K V : Type} [DecidableEq K] :
    (∀ (c : Task1.LRUCache K V) (k : K) (v : V),
        Task1.assocGet c.cache k = none → c.cache.length = c.capacity →
        0 < c.capacity → (c.put k v).cache = c.cache.drop 1 ++ [(k, v)]) ∧
    (∀ (ps : List (K × V)) (cap : Nat), (ps.map Prod.fst).Nodup →
        (Task1.putAll (Task1.LRUCache.init K V cap) ps).cache =
          ps.drop (ps.length - cap)) ∧
    (∀ (c : Task1.LRUCache K V) (k : K),
        Task1.assocGet c.cache k = none → c.get k = (none, c)) :=
  ⟨Task1.put_full_fresh, Task1.putAll_distinct, Task1.get_miss_eq⟩

/-- C4 witness: with capacity 2, put(1,10); put(2,20); put(3,30) evicts key
1 and keeps keys 2 and 3 in order, and a get of the absent key 9 returns
None and leaves the state unchanged. -/
theorem C4_lru_eviction_precise_witness :
    (Task1.putAll (Task1.LRUCache.init Nat Nat 2) [(1, 10), (2, 20), (3, 30)]).cache =
        [(2, 20), (3, 30)] ∧
      (Task1.LRUCache.mk 2 [(2, 20), (3, 30)] : Task1.LRUCache Nat Nat).get 9 =
        (none, Task1.LRUCache.mk 2 [(2, 20), (3, 30)]) := by
  constructor
  · rw [(C4_lru_eviction_precise (K := Nat) (V := Nat)).2.1
      [(1, 10), (2, 20), (3, 30)] 2 (by decide)]
    decide
  · exact (C4_lru_eviction_precise (K := Nat) (V := Nat)).2.2 _ 9 (by decide)

/-- C9: load_array fails with the length-mismatch error exactly when the
data length differs from the configured array size, and the check precedes
any mutation, so on success the backing array is replaced in full with the
cache untouched, while the error case produces no successor state at all
(the original state is untouched). -/
theorem C9_load_array_validation (s : Task1.ArrayCacheSystem) (data : List Int) :
    ((∃ e, Task1.load_array s data = Except.error e) ↔
        data.length ≠ s.array.length) ∧
      (∀ s2, Task1.load_array s data = Except.ok s2 →
        s2.array = data ∧ s2.cache = s.cache) := by
  rw [Task1.load_array]
  by_cases h : data.length = s.array.length
  · rw [if_neg (by omega)]
    refine ⟨⟨fun he => Except.noConfusion he.choose_spec, fun hne => absurd h hne⟩, ?_⟩
    intro s2 hs2
    injection hs2 with hs2
    rw [← hs2]
    exact ⟨rfl, rfl⟩
  · rw [if_pos (by omega)]
    exact ⟨⟨fun _ => h, fun _ => ⟨_, rfl⟩⟩, fun s2 hs2 => Except.noConfusion hs2⟩

/-- C9 witness: loading a wrong-length list into a two-element system
errors, and loading a matching-length list fully replaces the array and
keeps the cache. -/
theorem C9_load_array_validation_witness :
    (∃ e, Task1.load_array ⟨[0, 0], Task1.LRUCache.init _ _ 3⟩ [1, 2, 3] =
        Except.error e) ∧
      ((⟨[1, 2], Task1.LRUCache.init _ _ 3⟩ : Task1.ArrayCacheSystem).array = [1, 2] ∧
        (⟨[1, 2], Task1.LRUCache.init _ _ 3⟩ : Task1.ArrayCacheSystem).cache =
          (⟨[0, 0], Task1.LRUCache.init _ _ 3⟩ : Task1.ArrayCacheSystem).cache) := by
  constructor
  · exact (C9_load_array_validation ⟨[0, 0], Task1.LRUCache.init _ _ 3⟩
      [1, 2, 3]).1.mpr (by decide)
  · exact (C9_load_array_validation ⟨[0, 0], Task1.LRUCache.init _ _ 3⟩
      [1, 2]).2 ⟨[1, 2], Task1.LRUCache.init _ _ 3⟩ (by rfl)

namespace Task1

theorem get_hit_mem {K V : Type} [DecidableEq K] (c : LRUCache K V) (k : K) (v : V)
    (h : (c.get k).1 = some v) : (k, v) ∈ c.cache := by
  rw [LRUCache.get] at h
  split at h
  · cases h
  · next v0 hg =>
    injection h with h
    subst h
    exact assocGet_mem _ _ _ hg

theorem get_snd_subset {K V : Type} [DecidableEq K] (c : LRUCache K V) (k : K)
    (e : K × V) (h : e ∈ (c.get k).2.cache) : e ∈ c.cache := by
  rw [LRUCache.get] at h
  split at h
  · exact h
  · next v0 hg =>
    simp only [List.mem_append, List.mem_cons, List.not_mem_nil, or_false] at h
    rcases h with h | h
    · exact mem_removeKey _ _ _ h
    · exact h ▸ assocGet_mem _ _ _ hg

theorem put_subset {K V : Type} [DecidableEq K] (c : LRUCache K V) (k : K) (v : V)
    (e : K × V) (h : e ∈ (c.put k v).cache) : e ∈ c.cache ∨ e = (k, v) := by
  rw [LRUCache.put] at h
  split at h
  · simp only [List.mem_append, List.mem_cons, List.not_mem_nil, or_false] at h
    rcases h with h | h
    · exact Or.inl (mem_removeKey _ _ _ h)
    · exact Or.inr h
  · dsimp only at h
    split at h
    · have h2 := List.drop_subset _ _ h
      simp only [List.mem_append, List.mem_cons, List.not_mem_nil, or_false] at h2
      exact h2
    · simp only [List.mem_append, List.mem_cons, List.not_mem_nil, or_false] at h
      exact h

theorem rsum_cache_step (s : ArrayCacheSystem) (L R : Nat) (hinv : CacheInv s) :
    (range_sum_with_cache s L R).1 = sumRange s.array L R ∧
      CacheInv (range_sum_with_cache s L R).2 ∧
      (range_sum_with_cache s L R).2.array = s.array := by
  rw [range_sum_with_cache]
  rcases hget : s.cache.get (L, R) with ⟨ov, c1⟩
  cases ov with
  | some v =>
    have hmem : ((L, R), v) ∈ s.cache.cache := by
      apply get_hit_mem s.cache (L, R) v
      rw [hget]
    refine ⟨hinv _ hmem, ?_, rfl⟩
    intro e he
    apply hinv
    apply get_snd_subset s.cache (L, R)
    rw [hget]
    exact he
  | none =>
    refine ⟨rfl, ?_, rfl⟩
    intro e he
    dsimp only at he
    rcases put_subset _ _ _ _ he with h | h
    · exact hinv _ h
    · rw [h]

theorem update_cache_inv (s : ArrayCacheSystem) (i : Nat) (v : Int) :
    CacheInv (update_with_cache s i v) := by
  intro e he
  simp [update_with_cache, LRUCache.clear] at he

theorem runAOps_pure (ops : List AOp) (s : ArrayCacheSystem) (hinv : CacheInv s) :
    (runAOps ops s).1 = runPure ops s.array := by
  induction ops generalizing s with
  | nil => rfl
  | cons op ops ih =>
    cases op with
    | rsum L R =>
      obtain ⟨hval, hinv2, harr⟩ := rsum_cache_step s L R hinv
      rw [runAOps, runPure]
      dsimp only
      rw [hval, ih _ hinv2, harr]
    | upd i v =>
      rw [runAOps, runPure]
      exact ih _ (update_cache_inv s i v)

end Task1

/-- C2: for every backing array, every cache capacity, and every interleaved
sequence of cached range-sum and cached update operations with valid
arguments, the value returned by each range-sum call equals the direct
(uncached) summation over the array contents current at that call: caching
is observationally transparent because every update clears the whole
cache. -/
theorem C2_cache_transparent (arr : List Int) (cap : Nat) (ops : List Task1.AOp)
    (_hvalid : ∀ op ∈ ops, Task1.ValidAOp arr.length op) :
    (Task1.runAOps ops ⟨arr, Task1.LRUCache.init _ _ cap⟩).1 =
      Task1.runPure ops arr := by
  apply Task1.runAOps_pure
  intro e he
  simp [Task1.LRUCache.init] at he

/-- C2 witness: on the array [1, 2, 3] with a capacity-1 cache, the sequence
sum(0,2); update(1,5); sum(0,2); sum(0,2) is valid and yields 6, 9, 9 - the
third call is a cache hit that still reflects the updated array. -/
theorem C2_cache_transparent_witness :
    (∀ op ∈ ([Task1.AOp.rsum 0 2, Task1.AOp.upd 1 5, Task1.AOp.rsum 0 2,
        Task1.AOp.rsum 0 2] : List Task1.AOp),
      Task1.ValidAOp ([1, 2, 3] : List Int).length op) ∧
    (Task1.runAOps [Task1.AOp.rsum 0 2, Task1.AOp.upd 1 5, Task1.AOp.rsum 0 2,
        Task1.AOp.rsum 0 2] ⟨[1, 2, 3], Task1.LRUCache.init _ _ 1⟩).1 =
      Task1.runPure [Task1.AOp.rsum 0 2, Task1.AOp.upd 1 5, Task1.AOp.rsum 0 2,
        Task1.AOp.rsum 0 2] [1, 2, 3] := by
  refine ⟨by decide, C2_cache_transparent [1, 2, 3] 1 _ (by decide)⟩

/-- C10: both range-sum variants are total for all non-negative bounds
because Python slicing clamps: the result is 0 when L exceeds R or falls
beyond the array, the upper bound is clamped to the last index when R falls
beyond the array, and the cached variant returns the same value as the
direct summation on any state whose cache is consistent (as every reachable
state is); no index error can occur. -/
theorem C10_range_sum_total (s : Task1.ArrayCacheSystem) (L R : Nat) :
    (R < L → Task1.range_sum_no_cache s L R = 0) ∧
      (s.array.length ≤ L → Task1.range_sum_no_cache s L R = 0) ∧
      (s.array.length ≤ R → Task1.range_sum_no_cache s L R =
        Task1.range_sum_no_cache s L (s.array.length - 1)) ∧
      (Task1.CacheInv s → (Task1.range_sum_with_cache s L R).1 =
        Task1.range_sum_no_cache s L R) := by
  refine ⟨?_, ?_, ?_, ?_⟩
  · intro h
    simp [Task1.range_sum_no_cache, Task1.sumRange,
      Nat.sub_eq_zero_of_le (by omega : R + 1 ≤ L)]
  · intro h
    simp [Task1.range_sum_no_cache, Task1.sumRange, List.drop_eq_nil_of_le h]
  · intro h
    rw [Task1.range_sum_no_cache, Task1.range_sum_no_cache, Task1.sumRange,
      Task1.sumRange,
      List.take_of_length_le (by rw [List.length_drop]; omega),
      List.take_of_length_le (by rw [List.length_drop]; omega)]
  · intro hinv
    exact (Task1.rsum_cache_step s L R hinv).1

/-- C10 witness: on the array [1, 2, 3], sum(2,1) and sum(5,7) are 0,
sum(0,10) clamps to sum(0,2), and the cached variant agrees with the direct
one on the fresh (consistent) state. -/
theorem C10_range_sum_total_witness :
    Task1.range_sum_no_cache ⟨[1, 2, 3], Task1.LRUCache.init _ _ 1⟩ 2 1 = 0 ∧
      Task1.range_sum_no_cache ⟨[1, 2, 3], Task1.LRUCache.init _ _ 1⟩ 5 7 = 0 ∧
      Task1.range_sum_no_cache ⟨[1, 2, 3], Task1.LRUCache.init _ _ 1⟩ 0 10 =
        Task1.range_sum_no_cache ⟨[1, 2, 3], Task1.LRUCache.init _ _ 1⟩ 0 2 ∧
      (Task1.range_sum_with_cache ⟨[1, 2, 3], Task1.LRUCache.init _ _ 1⟩ 0 1).1 =
        Task1.range_sum_no_cache ⟨[1, 2, 3], Task1.LRUCache.init _ _ 1⟩ 0 1 := by
  refine ⟨(C10_range_sum_total _ 2 1).1 (by decide),
    (C10_range_sum_total _ 5 7).2.1 (by decide),
    (C10_range_sum_total _ 0 10).2.2.1 (by decide),
    (C10_range_sum_total _ 0 1).2.2.2 ?_⟩
  intro e he
  simp [Task1.LRUCache.init] at he

namespace Task2

theorem toList_rotateRightTop {K V : Type} (t : Tree K V) :
    toList (rotateRightTop t) = toList t := by
  rcases t with _ | ⟨l, k, v, r⟩
  · rfl
  · rcases l with _ | ⟨a, x, w, b⟩
    · rfl
    · simp [rotateRightTop, toList, List.append_assoc]

theorem toList_rotateLeftTop {K V : Type} (t : Tree K V) :
    toList (rotateLeftTop t) = toList t := by
  rcases t with _ | ⟨l, k, v, r⟩
  · rfl
  · rcases r with _ | ⟨b, x, w, c⟩
    · rfl
    · simp [rotateLeftTop, toList, List.append_assoc]

theorem toList_assemble {K V : Type} (t : Tree K V) (f : Frame K V) :
    toList (assemble t f) =
      match f.dir with
      | Dir.L => toList t ++ (f.key, f.val) :: toList f.other
      | Dir.R => toList f.other ++ (f.key, f.val) :: toList t := by
  rcases f with ⟨d, o, k, v⟩
  cases d <;> rfl

theorem assemble_congr {K V : Type} (t1 t2 : Tree K V) (f : Frame K V)
    (h : toList t1 = toList t2) : toList (assemble t1 f) = toList (assemble t2 f) := by
  rcases f with ⟨d, o, k, v⟩
  cases d <;> simp [assemble, toList, h]

theorem toList_zigStep {K V : Type} (t : Tree K V) (f : Frame K V) :
    toList (zigStep t f) = toList (assemble t f) := by
  rcases f with ⟨d, o, k, v⟩
  cases d
  · exact toList_rotateRightTop _
  · exact toList_rotateLeftTop _

theorem toList_zigZigZagStep {K V : Type} (t : Tree K V) (f1 f2 : Frame K V) :
    toList (zigZigZagStep t f1 f2) = toList (assemble (assemble t f1) f2) := by
  rcases f1 with ⟨d1, o1, k1, v1⟩
  rcases f2 with ⟨d2, o2, k2, v2⟩
  cases d1 <;> cases d2
  · rw [zigZigZagStep, toList_rotateRightTop, toList_rotateRightTop]
  · rw [zigZigZagStep, toList_rotateLeftTop]
    exact assemble_congr _ _ _ (toList_rotateRightTop _)
  · rw [zigZigZagStep, toList_rotateRightTop]
    exact assemble_congr _ _ _ (toList_rotateLeftTop _)
  · rw [zigZigZagStep, toList_rotateLeftTop, toList_rotateLeftTop]

theorem toList_plug_congr {K V : Type} (fs : List (Frame K V)) (t1 t2 : Tree K V)
    (h : toList t1 = toList t2) : toList (plug t1 fs) = toList (plug t2 fs) := by
  induction fs generalizing t1 t2 with
  | nil => exact h
  | cons f fs ih =>
    rw [plug, plug]
    exact ih _ _ (assemble_congr _ _ _ h)

theorem toList_splayLoop_aux {K V : Type} (n : Nat) :
    ∀ fs : List (Frame K V), fs.length ≤ n →
      ∀ t, toList (splayLoop t fs) = toList (plug t fs) := by
  induction n with
  | zero =>
    intro fs hlen t
    rw [List.length_eq_zero.mp (Nat.le_zero.mp hlen)]
    rfl
  | succ n ih =>
    intro fs hlen t
    match fs with
    | [] => rfl
    | [f] => exact toList_zigStep t f
    | f1 :: f2 :: fs =>
      rw [splayLoop]
      have h1 : toList (splayLoop (zigZigZagStep t f1 f2) fs) =
          toList (plug (zigZigZagStep t f1 f2) fs) := by
        apply ih
        simp only [List.length_cons] at hlen
        omega
      rw [h1]
      show toList (plug (zigZigZagStep t f1 f2) fs) = toList (plug t (f1 :: f2 :: fs))
      rw [plug, plug]
      exact toList_plug_congr fs _ _ (toList_zigZigZagStep t f1 f2)

theorem toList_splayLoop {K V : Type} (fs : List (Frame K V)) (t : Tree K V) :
    toList (splayLoop t fs) = toList (plug t fs) :=
  toList_splayLoop_aux fs.length fs (Nat.le_refl _) t

end Task2

namespace Task2

theorem plug_unzipAux {K V : Type} (p : List Dir) (t : Tree K V)
    (acc : List (Frame K V)) :
    plug (unzipAux t p acc).1 (unzipAux t p acc).2 = plug t acc := by
  induction p generalizing t acc with
  | nil => cases t <;> rfl
  | cons d p ih =>
    rcases t with _ | ⟨l, k, v, r⟩
    · rfl
    · cases d
      · exact ih l (⟨Dir.L, r, k, v⟩ :: acc)
      · exact ih r (⟨Dir.R, l, k, v⟩ :: acc)

theorem toList_splay {K V : Type} (t : Tree K V) (p : List Dir) :
    toList (splay t p) = toList t := by
  rw [splay]
  rw [toList_splayLoop]
  rw [plug_unzipAux p t []]
  rfl

theorem zigStep_node {K V : Type} (a : Tree K V) (x : K) (w : V) (b : Tree K V)
    (f : Frame K V) :
    ∃ a2 b2, zigStep (Tree.node a x w b) f = Tree.node a2 x w b2 := by
  rcases f with ⟨d, o, k, v⟩
  cases d
  · exact ⟨a, Tree.node b k v o, rfl⟩
  · exact ⟨Tree.node o k v a, b, rfl⟩

theorem zigZigZagStep_node {K V : Type} (a : Tree K V) (x : K) (w : V)
    (b : Tree K V) (f1 f2 : Frame K V) :
    ∃ a2 b2, zigZigZagStep (Tree.node a x w b) f1 f2 = Tree.node a2 x w b2 := by
  rcases f1 with ⟨d1, o1, k1, v1⟩
  rcases f2 with ⟨d2, o2, k2, v2⟩
  cases d1 <;> cases d2
  · exact ⟨a, Tree.node b k1 v1 (Tree.node o1 k2 v2 o2), rfl⟩
  · exact ⟨Tree.node o2 k2 v2 a, Tree.node b k1 v1 o1, rfl⟩
  · exact ⟨Tree.node o1 k1 v1 a, Tree.node b k2 v2 o2, rfl⟩
  · exact ⟨Tree.node (Tree.node o2 k2 v2 o1) k1 v1 a, b, rfl⟩

theorem splayLoop_node_aux {K V : Type} (n : Nat) :
    ∀ fs : List (Frame K V), fs.length ≤ n →
      ∀ (a : Tree K V) (x : K) (w : V) (b : Tree K V),
        ∃ a2 b2, splayLoop (Tree.node a x w b) fs = Tree.node a2 x w b2 := by
  induction n with
  | zero =>
    intro fs hlen a x w b
    rw [List.length_eq_zero.mp (Nat.le_zero.mp hlen)]
    exact ⟨a, b, rfl⟩
  | succ n ih =>
    intro fs hlen a x w b
    match fs with
    | [] => exact ⟨a, b, rfl⟩
    | [f] => exact zigStep_node a x w b f
    | f1 :: f2 :: fs =>
      rw [splayLoop]
      obtain ⟨a1, b1, h1⟩ := zigZigZagStep_node a x w b f1 f2
      rw [h1]
      apply ih
      simp only [List.length_cons] at hlen
      omega

theorem splayLoop_node {K V : Type} (fs : List (Frame K V)) (a : Tree K V) (x : K)
    (w : V) (b : Tree K V) :
    ∃ a2 b2, splayLoop (Tree.node a x w b) fs = Tree.node a2 x w b2 :=
  splayLoop_node_aux fs.length fs (Nat.le_refl _) a x w b

theorem findPath_unzipAux {K V : Type} [LinearOrder K] (d : K) (t : Tree K V)
    (p : List Dir) (h : findPath d t = some p) (acc : List (Frame K V)) :
    ∃ l v r fs, unzipAux t p acc = (Tree.node l d v r, fs) := by
  induction t generalizing p acc with
  | nil => simp [findPath] at h
  | node l k v r ihl ihr =>
    rw [findPath] at h
    split at h
    · obtain ⟨p1, hp1, hp⟩ := Option.map_eq_some'.mp h
      subst hp
      exact ihl p1 hp1 (⟨Dir.L, r, k, v⟩ :: acc)
    · next h1 =>
      split at h
      · obtain ⟨p1, hp1, hp⟩ := Option.map_eq_some'.mp h
        subst hp
        exact ihr p1 hp1 (⟨Dir.R, l, k, v⟩ :: acc)
      · next h2 =>
        injection h with h
        subst h
        have hdk : d = k := le_antisymm (not_lt.mp h2) (not_lt.mp h1)
        subst hdk
        exact ⟨l, v, r, acc, rfl⟩

theorem toList_subtree_plug {K V : Type} (fs : List (Frame K V)) (sub : Tree K V)
    (x : K × V) (h : x ∈ toList sub) : x ∈ toList (plug sub fs) := by
  induction fs generalizing sub with
  | nil => exact h
  | cons f fs ih =>
    rw [plug]
    apply ih
    rw [toList_assemble]
    rcases f with ⟨d, o, k, v⟩
    cases d <;> simp only [List.mem_append, List.mem_cons]
    · exact Or.inl h
    · exact Or.inr (Or.inr h)

theorem found_splay_spec {K V : Type} [LinearOrder K] (d : K) (t : Tree K V)
    (p : List Dir) (h : findPath d t = some p) :
    ∃ v a2 b2, rootVal (unzipAux t p []).1 = some v ∧
      splay t p = Tree.node a2 d v b2 ∧ (d, v) ∈ toList t := by
  obtain ⟨l, v, r, fs, hz⟩ := findPath_unzipAux d t p h []
  obtain ⟨a2, b2, hs⟩ := splayLoop_node fs l d v r
  refine ⟨v, a2, b2, ?_, ?_, ?_⟩
  · rw [hz]
    rfl
  · rw [splay, hz]
    exact hs
  · have hmem : (d, v) ∈ toList (plug (unzipAux t p []).1 (unzipAux t p []).2) := by
      rw [hz]
      exact toList_subtree_plug fs _ _ (by simp [toList])
    rw [plug_unzipAux p t []] at hmem
    exact hmem

theorem toList_searchT {K V : Type} [LinearOrder K] (d : K) (t : Tree K V) :
    toList (searchT d t).2 = toList t := by
  rw [searchT]
  split
  · rfl
  · exact toList_splay t _

theorem searchT_some {K V : Type} [LinearOrder K] (d : K) (t : Tree K V) (v : V)
    (h : (searchT d t).1 = some v) :
    (d, v) ∈ toList t ∧ rootKey (searchT d t).2 = some d := by
  rw [searchT] at h ⊢
  split at h
  · cases h
  · next p hfp =>
    obtain ⟨v0, a2, b2, hroot, hsplay, hmem⟩ := found_splay_spec d t p hfp
    dsimp only at h ⊢
    rw [hroot] at h
    injection h with h
    subst h
    rw [hsplay]
    exact ⟨hmem, rfl⟩

end Task2

namespace Task2

theorem keys_node {K V : Type} (l : Tree K V) (k : K) (w : V) (r : Tree K V) :
    keys (Tree.node l k w r) = keys l ++ k :: keys r := by
  simp [keys, toList]

theorem sorted_append_iff {A : Type} {r : A → A → Prop} (l1 l2 : List A) :
    List.Sorted r (l1 ++ l2) ↔
      List.Sorted r l1 ∧ List.Sorted r l2 ∧ ∀ x ∈ l1, ∀ y ∈ l2, r x y :=
  List.pairwise_append

theorem mem_toList_insertNode {K V : Type} [LinearOrder K] (d : K) (v : V)
    (t : Tree K V) (x : K × V) (h : x ∈ toList (insertNode d v t)) :
    x ∈ toList t ∨ x = (d, v) := by
  induction t with
  | nil => simpa [insertNode, toList] using h
  | node l k w r ihl ihr =>
    rw [insertNode] at h
    split at h
    · rw [toList] at h
      rcases List.mem_append.mp h with h1 | h1
      · rcases ihl h1 with h2 | h2
        · exact Or.inl (by rw [toList]; exact List.mem_append.mpr (Or.inl h2))
        · exact Or.inr h2
      · exact Or.inl (by rw [toList]; exact List.mem_append.mpr (Or.inr h1))
    · rw [toList] at h
      rcases List.mem_append.mp h with h1 | h1
      · exact Or.inl (by rw [toList]; exact List.mem_append.mpr (Or.inl h1))
      · rcases List.mem_cons.mp h1 with h2 | h2
        · exact Or.inl (by rw [toList]; simp [h2])
        · rcases ihr h2 with h3 | h3
          · exact Or.inl (by rw [toList]; simp [Or.inr (Or.inr h3)])
          · exact Or.inr h3

theorem self_mem_insertNode {K V : Type} [LinearOrder K] (d : K) (v : V)
    (t : Tree K V) : (d, v) ∈ toList (insertNode d v t) := by
  induction t with
  | nil => simp [insertNode, toList]
  | node l k w r ihl ihr =>
    rw [insertNode]
    split
    · rw [toList]
      exact List.mem_append.mpr (Or.inl ihl)
    · rw [toList]
      exact List.mem_append.mpr (Or.inr (List.mem_cons_of_mem _ ihr))

theorem keys_insertNode_sub {K V : Type} [LinearOrder K] (d : K) (v : V)
    (t : Tree K V) (x : K) (h : x ∈ keys (insertNode d v t)) :
    x ∈ keys t ∨ x = d := by
  rcases List.mem_map.mp h with ⟨q, hq, hx⟩
  rcases mem_toList_insertNode d v t q hq with h1 | h1
  · exact Or.inl (hx ▸ List.mem_map.mpr ⟨q, h1, rfl⟩)
  · subst h1
    exact Or.inr hx.symm

theorem self_mem_keys_insertNode {K V : Type} [LinearOrder K] (d : K) (v : V)
    (t : Tree K V) : d ∈ keys (insertNode d v t) :=
  List.mem_map.mpr ⟨(d, v), self_mem_insertNode d v t, rfl⟩

theorem sorted_insertNode {K V : Type} [LinearOrder K] (d : K) (v : V)
    (t : Tree K V) (h : (keys t).Sorted (· ≤ ·)) :
    (keys (insertNode d v t)).Sorted (· ≤ ·) := by
  induction t with
  | nil => simp [insertNode, keys, toList]
  | node l k w r ihl ihr =>
    rw [keys_node, sorted_append_iff, List.sorted_cons] at h
    obtain ⟨hl, ⟨hkr, hr⟩, hcross⟩ := h
    rw [insertNode]
    split
    · next hdk =>
      rw [keys_node, sorted_append_iff, List.sorted_cons]
      refine ⟨ihl hl, ⟨hkr, hr⟩, ?_⟩
      intro x hx y hy
      rcases keys_insertNode_sub d v l x hx with hx1 | rfl
      · exact hcross x hx1 y hy
      · rcases List.mem_cons.mp hy with rfl | hy2
        · exact le_of_lt hdk
        · exact le_trans (le_of_lt hdk) (hkr y hy2)
    · next hdk =>
      rw [keys_node, sorted_append_iff, List.sorted_cons]
      refine ⟨hl, ⟨?_, ihr hr⟩, ?_⟩
      · intro y hy
        rcases keys_insertNode_sub d v r y hy with hy1 | rfl
        · exact hkr y hy1
        · exact not_lt.mp hdk
      · intro x hx y hy
        rcases List.mem_cons.mp hy with rfl | hy2
        · exact hcross x hx y (List.mem_cons_self _ _)
        · rcases keys_insertNode_sub d v r y hy2 with hy3 | rfl
          · exact hcross x hx y (List.mem_cons_of_mem _ hy3)
          · exact le_trans (hcross x hx k (List.mem_cons_self _ _)) (not_lt.mp hdk)

theorem findPath_mem {K V : Type} [LinearOrder K] (d : K) (t : Tree K V)
    (hs : (keys t).Sorted (· ≤ ·)) (hmem : d ∈ keys t) :
    ∃ p, findPath d t = some p := by
  induction t with
  | nil => simp [keys, toList] at hmem
  | node l k w r ihl ihr =>
    rw [keys_node, sorted_append_iff, List.sorted_cons] at hs
    obtain ⟨hl, ⟨hkr, hr⟩, hcross⟩ := hs
    rw [keys_node] at hmem
    rw [findPath]
    by_cases h1 : d < k
    · rw [if_pos h1]
      have hdl : d ∈ keys l := by
        rcases List.mem_append.mp hmem with h | h
        · exact h
        · rcases List.mem_cons.mp h with rfl | h2
          · exact absurd h1 (lt_irrefl d)
          · exact absurd h1 (not_lt.mpr (hkr d h2))
      obtain ⟨p, hp⟩ := ihl hl hdl
      exact ⟨Dir.L :: p, by rw [hp]; rfl⟩
    · by_cases h2 : k < d
      · rw [if_neg h1, if_pos h2]
        have hdr : d ∈ keys r := by
          rcases List.mem_append.mp hmem with h | h
          · exact absurd h2 (not_lt.mpr (hcross d h k (List.mem_cons_self _ _)))
          · rcases List.mem_cons.mp h with rfl | h3
            · exact absurd h2 (lt_irrefl d)
            · exact h3
        obtain ⟨p, hp⟩ := ihr hr hdr
        exact ⟨Dir.R :: p, by rw [hp]; rfl⟩
      · rw [if_neg h1, if_neg h2]
        exact ⟨[], rfl⟩

theorem toList_insertT {K V : Type} [LinearOrder K] (d : K) (v : V) (t : Tree K V) :
    toList (insertT d v t) = toList (insertNode d v t) := by
  rw [insertT]
  split
  · rfl
  · exact toList_splay _ _

theorem keys_insertT {K V : Type} [LinearOrder K] (d : K) (v : V) (t : Tree K V) :
    keys (insertT d v t) = keys (insertNode d v t) := by
  rw [keys, toList_insertT]
  rfl

theorem sorted_insertT {K V : Type} [LinearOrder K] (d : K) (v : V) (t : Tree K V)
    (h : (keys t).Sorted (· ≤ ·)) : (keys (insertT d v t)).Sorted (· ≤ ·) := by
  rw [keys_insertT]
  exact sorted_insertNode d v t h

theorem sorted_searchT {K V : Type} [LinearOrder K] (d : K) (t : Tree K V)
    (h : (keys t).Sorted (· ≤ ·)) : (keys (searchT d t).2).Sorted (· ≤ ·) := by
  have : keys (searchT d t).2 = keys t := by
    rw [keys, toList_searchT]
    rfl
  rw [this]
  exact h

theorem sorted_runSOps {K V : Type} [LinearOrder K] (ops : List (SOp K V))
    (t : Tree K V) (h : (keys t).Sorted (· ≤ ·)) :
    (keys (runSOps ops t)).Sorted (· ≤ ·) := by
  induction ops generalizing t with
  | nil => exact h
  | cons op ops ih =>
    cases op with
    | ins k v =>
      rw [runSOps]
      exact ih _ (sorted_insertT k v t h)
    | srch k =>
      rw [runSOps]
      exact ih _ (sorted_searchT k t h)

theorem rootKey_insertT {K V : Type} [LinearOrder K] (d : K) (v : V) (t : Tree K V)
    (h : (keys t).Sorted (· ≤ ·)) : rootKey (insertT d v t) = some d := by
  obtain ⟨p, hp⟩ := findPath_mem d (insertNode d v t) (sorted_insertNode d v t h)
    (self_mem_keys_insertNode d v t)
  rw [insertT]
  split
  · next hnone => rw [hp] at hnone; cases hnone
  · next p2 hp2 =>
    rw [hp] at hp2
    injection hp2 with hp2
    subst hp2
    obtain ⟨v0, a2, b2, _, hsplay, _⟩ := found_splay_spec d (insertNode d v t) p hp
    rw [hsplay]
    rfl

theorem insertT_fresh {K V : Type} [LinearOrder K] (d : K) (v : V) (t : Tree K V)
    (hs : (keys t).Sorted (· ≤ ·)) (hfresh : d ∉ keys t) :
    ∃ A B, insertT d v t = Tree.node A d v B := by
  obtain ⟨p, hp⟩ := findPath_mem d (insertNode d v t) (sorted_insertNode d v t hs)
    (self_mem_keys_insertNode d v t)
  obtain ⟨v0, a2, b2, _, hsplay, hmemv⟩ := found_splay_spec d (insertNode d v t) p hp
  have hv : v0 = v := by
    rcases mem_toList_insertNode d v t (d, v0) hmemv with h1 | h1
    · exact absurd (List.mem_map.mpr ⟨(d, v0), h1, rfl⟩) hfresh
    · exact congrArg Prod.snd h1
  subst hv
  rw [insertT]
  split
  · next hnone => rw [hp] at hnone; cases hnone
  · next p2 hp2 =>
    rw [hp] at hp2
    injection hp2 with hp2
    subst hp2
    exact ⟨a2, b2, hsplay⟩

end Task2

namespace Task2

theorem insertT_eq {K V : Type} [LinearOrder K] (d : K) (v : V) (t : Tree K V) :
    insertT d v t =
      match findPath d (insertNode d v t) with
      | none => insertNode d v t
      | some p => splay (insertNode d v t) p := rfl

end Task2

/-- C6: on every splay tree reachable from the empty tree by insert and
search calls, the key at the root immediately after insert(k, v) is k, and
immediately after a search(k) that finds k the key at the root is k: the
splayed node ends at the root. -/
theorem C6_root_after_access {K V : Type} [LinearOrder K]
    (ops : List (Task2.SOp K V)) (d : K) (v : V) :
    Task2.rootKey (Task2.insertT d v (Task2.runSOps ops Task2.Tree.nil)) = some d ∧
      ∀ w, (Task2.searchT d (Task2.runSOps ops Task2.Tree.nil)).1 = some w →
        Task2.rootKey (Task2.searchT d (Task2.runSOps ops Task2.Tree.nil)).2 =
          some d := by
  have hs := Task2.sorted_runSOps ops Task2.Tree.nil
    (by simp [Task2.keys, Task2.toList])
  exact ⟨Task2.rootKey_insertT d v _ hs,
    fun w hw => (Task2.searchT_some d _ w hw).2⟩

/-- C6 witness: after inserting key 5 the root key is 5, and a successful
search for 5 leaves 5 at the root. -/
theorem C6_root_after_access_witness :
    Task2.rootKey (Task2.insertT 5 9
        (Task2.runSOps [Task2.SOp.ins 5 7] Task2.Tree.nil)) = some 5 ∧
      Task2.rootKey (Task2.searchT 5
        (Task2.runSOps [Task2.SOp.ins 5 7] Task2.Tree.nil)).2 = some 5 :=
  ⟨(C6_root_after_access [Task2.SOp.ins 5 7] 5 9).1,
    (C6_root_after_access [Task2.SOp.ins 5 7] 5 9).2 7 (by decide)⟩

/-- C7: every splay tree reachable from the empty tree by insert and search
calls satisfies the BST ordering property - its in-order key sequence is
non-decreasing - and each single rotation preserves the in-order traversal
exactly (hence BST ordering; in this pointer-free embedding the parent and
child links are rebuilt consistently by construction). -/
theorem C7_bst_order_preserved {K V : Type} [LinearOrder K] :
    (∀ ops : List (Task2.SOp K V),
        (Task2.keys (Task2.runSOps ops Task2.Tree.nil)).Sorted (· ≤ ·)) ∧
      ∀ t : Task2.Tree K V,
        Task2.toList (Task2.rotateRightTop t) = Task2.toList t ∧
          Task2.toList (Task2.rotateLeftTop t) = Task2.toList t :=
  ⟨fun ops => Task2.sorted_runSOps ops Task2.Tree.nil
      (by simp [Task2.keys, Task2.toList]),
    fun t => ⟨Task2.toList_rotateRightTop t, Task2.toList_rotateLeftTop t⟩⟩

/-- C8: insertion sends a key equal to the current node's key into the right
subtree, and the duplicate is shadowed: starting from any well-formed tree
without key k, after insert(k, v1) then insert(k, v2), search(k) stops at
the first node carrying k and returns v1, never v2. -/
theorem C8_duplicates_shadowed {K V : Type} [LinearOrder K] (t : Task2.Tree K V)
    (d : K) (v1 v2 : V) (hs : (Task2.keys t).Sorted (· ≤ ·))
    (hfresh : d ∉ Task2.keys t) :
    (∀ (l r : Task2.Tree K V) (w u : V),
        Task2.insertNode d u (Task2.Tree.node l d w r) =
          Task2.Tree.node l d w (Task2.insertNode d u r)) ∧
      (Task2.searchT d (Task2.insertT d v2 (Task2.insertT d v1 t))).1 = some v1 := by
  constructor
  · intro l r w u
    rw [Task2.insertNode, if_neg (lt_irrefl d)]
  · obtain ⟨A, B, hAB⟩ := Task2.insertT_fresh d v1 t hs hfresh
    rw [hAB]
    have hins : Task2.insertNode d v2 (Task2.Tree.node A d v1 B) =
        Task2.Tree.node A d v1 (Task2.insertNode d v2 B) := by
      rw [Task2.insertNode, if_neg (lt_irrefl d)]
    have hfp : Task2.findPath d (Task2.Tree.node A d v1 (Task2.insertNode d v2 B)) =
        some [] := by
      rw [Task2.findPath, if_neg (lt_irrefl d), if_neg (lt_irrefl d)]
    have h2 : Task2.insertT d v2 (Task2.Tree.node A d v1 B) =
        Task2.Tree.node A d v1 (Task2.insertNode d v2 B) := by
      rw [Task2.insertT_eq, hins, hfp]
      rfl
    rw [h2, Task2.searchT, hfp]
    rfl

/-- C8 witness: from the empty tree, insert(3, 10) then insert(3, 20);
search(3) returns 10, the value of the first inserted node, not 20. -/
theorem C8_duplicates_shadowed_witness :
    (Task2.searchT 3
      (Task2.insertT 3 20 (Task2.insertT 3 (10 : Nat) Task2.Tree.nil))).1 =
      some 10 :=
  (C8_duplicates_shadowed Task2.Tree.nil 3 10 20
    (by simp [Task2.keys, Task2.toList]) (by simp [Task2.keys, Task2.toList])).2

namespace Task2

theorem fibRef_rec (n : Nat) (h : 2 ≤ n) :
    fibRef n = fibRef (n - 1) + fibRef (n - 2) := by
  obtain ⟨m, rfl⟩ : ∃ m, n = m + 2 := ⟨n - 2, by omega⟩
  rfl

theorem fibonacci_lru_eq_fibRef (n : Nat) : fibonacci_lru n = fibRef n := by
  induction n using Nat.strong_induction_on with
  | _ n ih =>
    rw [fibonacci_lru]
    split
    · next h => interval_cases n <;> rfl
    · next h =>
      rw [ih (n - 1) (by omega), ih (n - 2) (by omega)]
      exact (fibRef_rec n (by omega)).symm

theorem TOK_searchT (n : Nat) (t : Tree Nat Nat) (hT : TOK t) :
    TOK (searchT n t).2 := by
  intro p hp
  apply hT
  rw [toList_searchT] at hp
  exact hp

theorem TOK_insertT (n v : Nat) (t : Tree Nat Nat) (hT : TOK t)
    (hv : v = fibRef n) : TOK (insertT n v t) := by
  intro p hp
  rw [toList_insertT] at hp
  rcases mem_toList_insertNode n v t p hp with h1 | h1
  · exact hT p h1
  · rw [h1]
    exact hv

theorem fibonacci_splay_correct :
    ∀ (n : Nat) (t : Tree Nat Nat), TOK t →
      (fibonacci_splay n t).1 = fibRef n ∧ TOK (fibonacci_splay n t).2 := by
  intro n
  induction n using Nat.strong_induction_on with
  | _ n ih =>
    intro t hT
    rw [fibonacci_splay]
    rcases hsearch : searchT n t with ⟨ov, t1⟩
    cases ov with
    | some v =>
      dsimp only
      constructor
      · exact hT _ (searchT_some n t v (by rw [hsearch])).1
      · have h2 := TOK_searchT n t hT
        rw [hsearch] at h2
        exact h2
    | none =>
      dsimp only
      split
      · next h2 =>
        constructor
        · interval_cases n <;> rfl
        · exact hT
      · next h2 =>
        obtain ⟨h1v, h1T⟩ := ih (n - 1) (by omega) t hT
        obtain ⟨h2v, h2T⟩ := ih (n - 2) (by omega) _ h1T
        constructor
        · dsimp only
          rw [h1v, h2v]
          exact (fibRef_rec n (by omega)).symm
        · apply TOK_insertT _ _ _ h2T
          rw [h1v, h2v]
          exact (fibRef_rec n (by omega)).symm

theorem TOK_init : TOK initFibTree := by
  intro p hp
  have h : toList initFibTree = [(0, 0), (1, 1)] := by decide
  rw [h] at hp
  rcases List.mem_cons.mp hp with rfl | hp2
  · rfl
  · rcases List.mem_cons.mp hp2 with rfl | hp3
    · rfl
    · cases hp3

end Task2

/-- C1: for every n, the unbounded-cache strategy (fibonacci_lru) and the
ordered-cache strategy (fibonacci_splay started on the freshly seeded tree)
return the same value, which equals the reference recurrence f(0)=0,
f(1)=1, f(n)=f(n-1)+f(n-2); in particular f(10)=55 and f(20)=6765. -/
theorem C1_fib_strategies_agree :
    (∀ n, (Task2.fibonacci_splay n Task2.initFibTree).1 = Task2.fibonacci_lru n ∧
        Task2.fibonacci_lru n = Task2.fibRef n) ∧
      Task2.fibRef 10 = 55 ∧ Task2.fibRef 20 = 6765 := by
  refine ⟨fun n => ?_, by decide, by decide⟩
  have h1 := (Task2.fibonacci_splay_correct n Task2.initFibTree Task2.TOK_init).1
  have h2 := Task2.fibonacci_lru_eq_fibRef n
  exact ⟨by rw [h1, h2], h2⟩
